import Mathlib

/-!
Verification development for the SQEez digital-audio sampling/quantization
pipeline.  The definitions below are shallow embeddings of the TypeScript
source: the quantizer and the adaptive-FIR order are embedded generically
over an ordered field with a floor (instantiated at ℚ for concrete
evaluation and at ℝ for the analog-path components), the waveform
generator and the polyphase filter-coefficient table are embedded over ℝ
(they use transcendental functions), and the block-processing callback is
embedded as explicit state passing.
-/

namespace SQEez

variable {α : Type*} [LinearOrderedField α] [FloorRing α]

/-- quantizationLevels = Math.pow(2, bitDepth)  (Visualizer.tsx line 93). -/
def quantizationLevels (bitDepth : ℕ) : ℕ := 2 ^ bitDepth

/-- Clamped quantization index of the quantizer
(WaveformCanvas.tsx lines 264-267 / Visualizer.tsx lines 157-159):
normalized = (value + 1) / 2; quantized = floor(normalized * levels);
clamped = max(0, min(levels - 1, quantized)). -/
def quantizeIndex (value : α) (levels : ℕ) : ℤ :=
  let normalized := (value + 1) / 2
  let quantized := ⌊normalized * (levels : α)⌋
  max 0 (min ((levels : ℤ) - 1) quantized)

/-- The quantizer (WaveformCanvas.tsx lines 264-269):
returns (clamped / (levels - 1)) * 2 - 1. -/
def quantize (value : α) (levels : ℕ) : α :=
  ((quantizeIndex value levels : α) / ((levels : α) - 1)) * 2 - 1

/-- The i-th representable output level of the quantizer:
(i / (levels - 1)) * 2 - 1. -/
def levelValue (levels i : ℕ) : α := ((i : α) / ((levels : α) - 1)) * 2 - 1

theorem quantizeIndex_nonneg (value : α) (levels : ℕ) :
    0 ≤ quantizeIndex value levels :=
  le_max_left 0 _

theorem quantizeIndex_le (value : α) (levels : ℕ) (h : 1 ≤ levels) :
    quantizeIndex value levels ≤ (levels : ℤ) - 1 := by
  have h1 : (1 : ℤ) ≤ (levels : ℤ) := by exact_mod_cast h
  exact max_le (by omega) (min_le_left _ _)

theorem levels_cast_two_le (levels : ℕ) (hL : 2 ≤ levels) :
    (2 : α) ≤ (levels : α) := by
  exact_mod_cast hL

theorem quantize_bounds (value : α) (levels : ℕ) (hL : 2 ≤ levels) :
    -1 ≤ quantize value levels ∧ quantize value levels ≤ 1 := by
  have hd : (0 : α) < (levels : α) - 1 := by
    have := levels_cast_two_le (α := α) levels hL
    linarith
  have hk0 : (0 : α) ≤ (quantizeIndex value levels : α) := by
    exact_mod_cast quantizeIndex_nonneg value levels
  have hk1 : (quantizeIndex value levels : α) ≤ (levels : α) - 1 := by
    have := quantizeIndex_le value levels (by omega)
    calc (quantizeIndex value levels : α) ≤ (((levels : ℤ) - 1 : ℤ) : α) := by
          exact_mod_cast this
      _ = (levels : α) - 1 := by push_cast; ring
  constructor
  · have : (0 : α) ≤ (quantizeIndex value levels : α) / ((levels : α) - 1) :=
      div_nonneg hk0 (le_of_lt hd)
    unfold quantize
    linarith
  · have : (quantizeIndex value levels : α) / ((levels : α) - 1) ≤ 1 :=
      (div_le_one hd).2 hk1
    unfold quantize
    linarith

theorem quantize_eq_levelValue (value : α) (levels : ℕ) (hL : 2 ≤ levels) :
    ∃ i : ℕ, i < levels ∧ quantize value levels = levelValue levels i := by
  refine ⟨(quantizeIndex value levels).toNat, ?_, ?_⟩
  · have h1 := quantizeIndex_le value levels (by omega)
    have h0 := quantizeIndex_nonneg value levels
    omega
  · have h0 := quantizeIndex_nonneg value levels
    unfold quantize levelValue
    have : (((quantizeIndex value levels).toNat : ℕ) : α)
        = ((quantizeIndex value levels : ℤ) : α) := by
      exact_mod_cast congrArg (fun z : ℤ => (z : α)) (Int.toNat_of_nonneg h0)
    rw [this]

theorem levelValue_injOn (levels : ℕ) (hL : 2 ≤ levels) (i j : ℕ)
    (hij : (levelValue levels i : α) = levelValue levels j) : i = j := by
  have hd : (0 : α) < (levels : α) - 1 := by
    have := levels_cast_two_le (α := α) levels hL
    linarith
  unfold levelValue at hij
  have h2 : ((i : α) / ((levels : α) - 1)) = ((j : α) / ((levels : α) - 1)) := by
    linarith
  field_simp at h2
  exact_mod_cast h2

theorem levelValue_spacing (levels : ℕ) (hL : 2 ≤ levels) (i : ℕ) :
    (levelValue levels (i + 1) : α) - levelValue levels i
      = 2 / ((levels : α) - 1) := by
  have hd : ((levels : α) - 1) ≠ 0 := by
    have h2 := levels_cast_two_le (α := α) levels hL
    have h3 : (1 : α) < (levels : α) := by linarith
    exact sub_ne_zero.mpr (ne_of_gt h3)
  unfold levelValue
  push_cast
  field_simp
  ring

theorem quantize_levelValue (levels i : ℕ) (hL : 2 ≤ levels) (hi : i < levels) :
    quantize (levelValue levels i : α) levels = levelValue levels i := by
  have h2 : (2 : α) ≤ (levels : α) := levels_cast_two_le levels hL
  have hd : (0 : α) < (levels : α) - 1 := by linarith
  have hd' : ((levels : α) - 1) ≠ 0 := ne_of_gt hd
  have hnorm : ((levelValue levels i : α) + 1) / 2 = (i : α) / ((levels : α) - 1) := by
    unfold levelValue; ring
  rcases Nat.lt_or_ge (i + 1) levels with hcase | hcase
  · -- interior level: the floor recovers the index exactly
    have hiα : (i : α) < (levels : α) - 1 := by
      have : ((i : ℕ) : α) + 2 ≤ (levels : α) := by exact_mod_cast hcase
      linarith
    have hkey : ((i : α) / ((levels : α) - 1)) * (levels : α)
        = (i : α) + (i : α) / ((levels : α) - 1) := by
      field_simp
      ring
    have hfrac0 : (0 : α) ≤ (i : α) / ((levels : α) - 1) :=
      div_nonneg (by positivity) (le_of_lt hd)
    have hfrac1 : (i : α) / ((levels : α) - 1) < 1 := (div_lt_one hd).2 hiα
    have hfloor : ⌊((i : α) / ((levels : α) - 1)) * (levels : α)⌋ = (i : ℤ) := by
      rw [Int.floor_eq_iff]
      constructor
      · rw [hkey]; push_cast; linarith
      · rw [hkey]; push_cast; linarith
    have hidx : quantizeIndex (levelValue levels i : α) levels = (i : ℤ) := by
      unfold quantizeIndex
      simp only [hnorm, hfloor]
      have hle : (i : ℤ) ≤ (levels : ℤ) - 1 := by omega
      rw [min_eq_right hle, max_eq_right (by positivity)]
    unfold quantize
    rw [hidx]
    unfold levelValue
    push_cast
    ring
  · -- top level: the floor overshoots to levels and is clamped back
    have hieq : i + 1 = levels := by omega
    have hiα : (i : α) = (levels : α) - 1 := by
      have : ((i : ℕ) : α) + 1 = (levels : α) := by exact_mod_cast hieq
      linarith
    have hone : (i : α) / ((levels : α) - 1) = 1 := by
      rw [hiα]; exact div_self hd'
    have hfloor : ⌊((i : α) / ((levels : α) - 1)) * (levels : α)⌋ = (levels : ℤ) := by
      rw [hone, one_mul, Int.floor_natCast]
    have hidx : quantizeIndex (levelValue levels i : α) levels = (levels : ℤ) - 1 := by
      unfold quantizeIndex
      simp only [hnorm, hfloor]
      rw [min_eq_left (by omega), max_eq_right (by omega)]
    unfold quantize
    rw [hidx]
    unfold levelValue
    rw [hone]
    push_cast
    field_simp

/-- C1: for value in [-1,1] and integer levels ≥ 2, the quantizer follows the
normalize/floor/clamp/denormalize algorithm, its output lies in [-1,1], it is
one of the `levels` distinct representable level values, and consecutive level
values are evenly spaced by 2/(levels-1). -/
theorem quantizer_algorithm_and_level_set (value : α) (levels : ℕ)
    (h1 : -1 ≤ value) (h2 : value ≤ 1) (hL : 2 ≤ levels) :
    quantizeIndex value levels
        = max 0 (min ((levels : ℤ) - 1) ⌊((value + 1) / 2) * (levels : α)⌋) ∧
    quantize value levels
        = ((quantizeIndex value levels : α) / ((levels : α) - 1)) * 2 - 1 ∧
    (-1 ≤ quantize value levels ∧ quantize value levels ≤ 1) ∧
    (∃ i : ℕ, i < levels ∧ quantize value levels = levelValue levels i) ∧
    ((Finset.range levels).image (fun i => (levelValue levels i : α))).card
        = levels ∧
    (∀ i : ℕ, i + 1 < levels →
      (levelValue levels (i + 1) : α) - levelValue levels i
        = 2 / ((levels : α) - 1)) := by
  refine ⟨rfl, rfl, quantize_bounds value levels hL,
    quantize_eq_levelValue value levels hL, ?_, fun i _ => levelValue_spacing levels hL i⟩
  rw [Finset.card_image_of_injOn fun i _ j _ h => levelValue_injOn levels hL i j h]
  exact Finset.card_range levels

theorem quantizer_algorithm_and_level_set_witness :
    ((-1 : ℚ) ≤ 1/5 ∧ (1/5 : ℚ) ≤ 1 ∧ 2 ≤ 4) ∧
    (-1 ≤ quantize (1/5 : ℚ) 4 ∧ quantize (1/5 : ℚ) 4 ≤ 1) ∧
    quantizeIndex (1/5 : ℚ) 4 = 2 ∧ quantize (1/5 : ℚ) 4 = 1/3 :=
  ⟨⟨by norm_num, by norm_num, by norm_num⟩,
   (quantizer_algorithm_and_level_set (1/5 : ℚ) 4 (by norm_num) (by norm_num)
     (by norm_num)).2.2.1,
   by norm_num [quantizeIndex], by norm_num [quantize, quantizeIndex]⟩

/-- C5: quantization is idempotent — any value in the quantizer's output range
(the image of some v in [-1,1]) is a fixed point of another quantization pass
at the same level count. -/
theorem quantize_idempotent (levels : ℕ) (hL : 2 ≤ levels) (w v : α)
    (h1 : -1 ≤ v) (h2 : v ≤ 1) (hw : w = quantize v levels) :
    quantize w levels = w := by
  obtain ⟨i, hi, hv⟩ := quantize_eq_levelValue v levels hL
  rw [hw, hv]
  exact quantize_levelValue levels i hL hi

theorem quantize_idempotent_witness :
    ((-1 : ℚ) ≤ 1/5 ∧ (1/5 : ℚ) ≤ 1 ∧ 2 ≤ 4) ∧
    quantize (quantize (1/5 : ℚ) 4) 4 = quantize (1/5 : ℚ) 4 ∧
    quantize (1/5 : ℚ) 4 = 1/3 :=
  ⟨⟨by norm_num, by norm_num, by norm_num⟩,
   quantize_idempotent 4 (by norm_num) _ (1/5 : ℚ) (by norm_num) (by norm_num) rfl,
   by norm_num [quantize, quantizeIndex]⟩

/-- C7: at bitDepth = 1 (levels = 2) the quantizer is well defined:
quantize(0.3) has index 1 and value +1, quantize(-0.9) has index 0 and
value -1. -/
theorem quantize_one_bit_edge :
    quantizationLevels 1 = 2 ∧
    quantizeIndex (3/10 : ℚ) (quantizationLevels 1) = 1 ∧
    quantize (3/10 : ℚ) (quantizationLevels 1) = 1 ∧
    quantizeIndex (-(9/10) : ℚ) (quantizationLevels 1) = 0 ∧
    quantize (-(9/10) : ℚ) (quantizationLevels 1) = -1 := by
  refine ⟨rfl, ?_, ?_, ?_, ?_⟩ <;> norm_num [quantize, quantizeIndex, quantizationLevels]

/-- C10: the quantizer is total and range-safe for every input value, even
outside [-1,1]: the clamped index always lies in [0, levels-1] and the output
always lies in [-1,1]. -/
theorem quantize_total_range_safe (value : α) (levels : ℕ) (hL : 2 ≤ levels) :
    0 ≤ quantizeIndex value levels ∧
    quantizeIndex value levels ≤ (levels : ℤ) - 1 ∧
    -1 ≤ quantize value levels ∧ quantize value levels ≤ 1 :=
  ⟨quantizeIndex_nonneg value levels, quantizeIndex_le value levels (by omega),
   (quantize_bounds value levels hL).1, (quantize_bounds value levels hL).2⟩

/-- One hardware-rate tick of the decimator (Visualizer.tsx lines 150-167):
advance the phase accumulator by 1.0; when it reaches downsampleRatio,
subtract the ratio and capture the quantized just-arrived input sample;
otherwise no capture. -/
def decimatorTick (levels : ℕ) (downsampleRatio : α) (phaseAccumulator : α)
    (input : α) : α × Option α :=
  let acc := phaseAccumulator + 1
  if downsampleRatio ≤ acc then (acc - downsampleRatio, some (quantize input levels))
  else (acc, none)

/-- Phase accumulator after n hardware ticks of the decimator, starting from 0
(Visualizer.tsx line 96), feeding the input stream f. -/
def decimAcc (levels : ℕ) (downsampleRatio : ℚ) (f : ℕ → ℚ) : ℕ → ℚ
  | 0 => 0
  | n + 1 =>
    (decimatorTick levels downsampleRatio (decimAcc levels downsampleRatio f n) (f n)).1

/-- The capture (if any) produced by the decimator on tick n+1. -/
def decimCapture (levels : ℕ) (downsampleRatio : ℚ) (f : ℕ → ℚ) (n : ℕ) : Option ℚ :=
  (decimatorTick levels downsampleRatio (decimAcc levels downsampleRatio f n) (f n)).2

theorem decimAcc_mod (levels : ℕ) (f : ℕ → ℚ) (n : ℕ) :
    decimAcc levels 4 f n = ((n % 4 : ℕ) : ℚ) := by
  induction n with
  | zero => simp [decimAcc]
  | succ n ih =>
    have h4 : n % 4 = 0 ∨ n % 4 = 1 ∨ n % 4 = 2 ∨ n % 4 = 3 := by omega
    rcases h4 with h | h | h | h
    · have h' : (n + 1) % 4 = 1 := by omega
      simp only [decimAcc, ih, h, h', decimatorTick]
      norm_num
    · have h' : (n + 1) % 4 = 2 := by omega
      simp only [decimAcc, ih, h, h', decimatorTick]
      norm_num
    · have h' : (n + 1) % 4 = 3 := by omega
      simp only [decimAcc, ih, h, h', decimatorTick]
      norm_num
    · have h' : (n + 1) % 4 = 0 := by omega
      simp only [decimAcc, ih, h, h', decimatorTick]
      norm_num

theorem decimCapture_eq (levels : ℕ) (f : ℕ → ℚ) (n : ℕ) :
    decimCapture levels 4 f n
      = if (n + 1) % 4 = 0 then some (quantize (f n) levels) else none := by
  unfold decimCapture
  rw [decimAcc_mod]
  have h4 : n % 4 = 0 ∨ n % 4 = 1 ∨ n % 4 = 2 ∨ n % 4 = 3 := by omega
  rcases h4 with h | h | h | h
  · have h' : (n + 1) % 4 = 1 := by omega
    simp only [h, h', decimatorTick]
    norm_num
  · have h' : (n + 1) % 4 = 2 := by omega
    simp only [h, h', decimatorTick]
    norm_num
  · have h' : (n + 1) % 4 = 3 := by omega
    simp only [h, h', decimatorTick]
    norm_num
  · have h' : (n + 1) % 4 = 0 := by omega
    simp only [h, h', decimatorTick]
    norm_num

/-- C2: each hardware tick adds 1.0 to the phase accumulator and captures the
just-arrived quantized sample exactly when the accumulator reaches
downsampleRatio (subtracting the ratio), and for downsampleRatio = 4.0 from a
zero accumulator a capture happens exactly once every 4 ticks, with the
accumulator always in [0, 4) after every tick. -/
theorem decimator_tick_and_period (levels : ℕ) (f : ℕ → ℚ) :
    (∀ r acc x : ℚ, decimatorTick levels r acc x
        = if r ≤ acc + 1 then (acc + 1 - r, some (quantize x levels))
          else (acc + 1, none)) ∧
    (∀ n, decimAcc levels 4 f n = ((n % 4 : ℕ) : ℚ)) ∧
    (∀ n, (decimCapture levels 4 f n).isSome = true ↔ (n + 1) % 4 = 0) ∧
    (∀ n, decimCapture levels 4 f n
        = if (n + 1) % 4 = 0 then some (quantize (f n) levels) else none) ∧
    (∀ n, 0 ≤ decimAcc levels 4 f n ∧ decimAcc levels 4 f n < 4) := by
  refine ⟨fun r acc x => rfl, decimAcc_mod levels f, ?_, decimCapture_eq levels f, ?_⟩
  · intro n
    rw [decimCapture_eq]
    by_cases h : (n + 1) % 4 = 0 <;> simp [h]
  · intro n
    rw [decimAcc_mod]
    constructor
    · positivity
    · have : n % 4 < 4 := by omega
      exact_mod_cast this

theorem quantize_total_range_safe_witness :
    (2 ≤ 4) ∧
    (0 ≤ quantizeIndex (5 : ℚ) 4 ∧ quantizeIndex (5 : ℚ) 4 ≤ ((4 : ℕ) : ℤ) - 1 ∧
      -1 ≤ quantize (5 : ℚ) 4 ∧ quantize (5 : ℚ) 4 ≤ 1) ∧
    quantizeIndex (5 : ℚ) 4 = 3 ∧ quantize (5 : ℚ) 4 = 1 :=
  ⟨by norm_num, quantize_total_range_safe (5 : ℚ) 4 (by norm_num),
   by norm_num [quantizeIndex], by norm_num [quantize, quantizeIndex]⟩

/-- Filter order of createAdaptiveFIR (Visualizer.tsx lines 242-244):
baseOrder = 64, rateScale = sampleRate / 4000,
filterOrder = Math.max(32, Math.floor(baseOrder * rateScale)). -/
def filterOrder (sampleRate : ℚ) : ℤ :=
  let baseOrder : ℚ := 64
  let rateScale := sampleRate / 4000
  max 32 ⌊baseOrder * rateScale⌋

/-- C8: the Kaiser-windowed adaptive FIR order equals
max(32, floor(64 * sampleRate / 4000)), is at least 32, and is monotonically
non-decreasing in the sample rate. -/
theorem adaptiveFIR_order_formula (sampleRate : ℚ) :
    filterOrder sampleRate = max 32 ⌊(64 : ℚ) * (sampleRate / 4000)⌋ ∧
    32 ≤ filterOrder sampleRate ∧
    ∀ r s : ℚ, r ≤ s → filterOrder r ≤ filterOrder s := by
  refine ⟨rfl, le_max_left _ _, fun r s h => ?_⟩
  have hdiv : r / 4000 ≤ s / 4000 := by linarith
  have hmul : (64 : ℚ) * (r / 4000) ≤ 64 * (s / 4000) := by linarith
  exact max_le_max le_rfl (Int.floor_le_floor hmul)

theorem adaptiveFIR_order_formula_witness :
    ((8000 : ℚ) ≤ 16000) ∧
    filterOrder 8000 = 128 ∧ filterOrder 16000 = 256 ∧
    filterOrder 8000 ≤ filterOrder 16000 :=
  ⟨by norm_num, by norm_num [filterOrder], by norm_num [filterOrder],
   (adaptiveFIR_order_formula 8000).2.2 8000 16000 (by norm_num)⟩

/-- WaveformType (schema.ts line 3). -/
inductive WaveformType
  | sine
  | square
  | triangle
  | sawtooth
deriving DecidableEq

/-- Candidate settings object arriving at the configuration boundary
(schema.ts lines 5-11); the waveformType arrives as a raw string
to be checked against the enum. -/
structure AudioSettings where
  sampleRate : ℚ
  bitDepth : ℚ
  frequency : ℚ
  isPlaying : Bool
  waveformType : String

/-- audioSettingsSchema (schema.ts lines 19-25): sampleRate in [0.1, 88200],
bitDepth an integer in [1, 32], frequency in [20, 20000], waveformType one of
the four enum strings; a settings object is accepted exactly when every field
check passes. -/
def audioSettingsSchema (s : AudioSettings) : Bool :=
  (decide ((1 : ℚ)/10 ≤ s.sampleRate) && decide (s.sampleRate ≤ 88200)) &&
  ((s.bitDepth.den == 1) && decide ((1 : ℚ) ≤ s.bitDepth) &&
    decide (s.bitDepth ≤ 32)) &&
  (decide ((20 : ℚ) ≤ s.frequency) && decide (s.frequency ≤ 20000)) &&
  (s.waveformType == "sine" || s.waveformType == "square" ||
    s.waveformType == "triangle" || s.waveformType == "sawtooth")

theorem rat_den_one_iff_int (q : ℚ) : q.den = 1 ↔ ∃ k : ℤ, q = (k : ℚ) := by
  constructor
  · intro h
    exact ⟨q.num, ((Rat.den_eq_one_iff q).1 h).symm⟩
  · rintro ⟨k, rfl⟩
    exact Rat.den_intCast k

/-- C9: the settings validator accepts a settings object if and only if
sampleRate lies in [0.1, 88200], bitDepth is an integer in [1, 32], frequency
lies in [20, 20000], and waveformType is one of the four enum values; any
field outside its bound makes the validator reject (no clamping). -/
theorem audioSettingsSchema_accepts_iff (s : AudioSettings) :
    audioSettingsSchema s = true ↔
      ((1 : ℚ)/10 ≤ s.sampleRate ∧ s.sampleRate ≤ 88200) ∧
      ((∃ k : ℤ, s.bitDepth = (k : ℚ)) ∧ 1 ≤ s.bitDepth ∧ s.bitDepth ≤ 32) ∧
      (20 ≤ s.frequency ∧ s.frequency ≤ 20000) ∧
      (s.waveformType = "sine" ∨ s.waveformType = "square" ∨
        s.waveformType = "triangle" ∨ s.waveformType = "sawtooth") := by
  unfold audioSettingsSchema
  simp only [Bool.and_eq_true, Bool.or_eq_true, decide_eq_true_eq, beq_iff_eq,
    rat_den_one_iff_int]
  tauto

/-- Truncation toward zero, as computed by JavaScript's % operator on
numbers. -/
noncomputable def jsTrunc (x : ℝ) : ℤ := if 0 ≤ x then ⌊x⌋ else ⌈x⌉

/-- JavaScript's remainder a % b: a - b * trunc(a / b); the result takes the
sign of the dividend. -/
noncomputable def jsMod (a b : ℝ) : ℝ := a - b * jsTrunc (a / b)

/-- generateWaveform (schema.ts lines 29-44). -/
noncomputable def generateWaveform (t frequency : ℝ) (type : WaveformType) : ℝ :=
  let phase := 2 * Real.pi * frequency * t
  match type with
  | .sine => Real.sin phase
  | .square => if 0 ≤ Real.sin phase then 1 else -1
  | .triangle => (2 / Real.pi) * Real.arcsin (Real.sin phase)
  | .sawtooth => 2 * jsMod (frequency * t) 1 - 1

/-- C3 counterexample: at t = -1/4, f = 1 the code's sawtooth evaluates the
JS remainder (f*t) % 1 = -1/4 and returns -3/2, while the claimed
2*frac(f*t) - 1 with frac(x) = x - floor(x) gives 1/2; the claim is false as
stated for negative f*t. -/
theorem generateWaveform_sawtooth_counterexample :
    generateWaveform (-(1/4) : ℝ) 1 .sawtooth = -(3/2) ∧
    2 * Int.fract ((1 : ℝ) * (-(1/4) : ℝ)) - 1 = 1/2 ∧
    generateWaveform (-(1/4) : ℝ) 1 .sawtooth
      ≠ 2 * Int.fract ((1 : ℝ) * (-(1/4) : ℝ)) - 1 := by
  have h1 : generateWaveform (-(1/4) : ℝ) 1 .sawtooth = -(3/2) := by
    unfold generateWaveform jsMod jsTrunc
    have hc : ⌈(-(1/4) : ℝ)⌉ = 0 := by norm_num
    norm_num [hc]
  have h2 : 2 * Int.fract ((1 : ℝ) * (-(1/4) : ℝ)) - 1 = 1/2 := by
    unfold Int.fract
    norm_num
  exact ⟨h1, h2, by rw [h1, h2]; norm_num⟩

/-- C3 (amended): generateWaveform matches the conventional forms for sine,
square (value exactly in {-1, 1}, with sin ≥ 0 mapping to +1) and triangle at
every t and f; the sawtooth equals 2*frac(f*t) - 1 whenever f*t ≥ 0 — the
code computes the JS remainder (f*t) % 1 = f*t - trunc(f*t), which coincides
with frac(x) = x - floor(x) only for nonnegative f*t. -/
theorem generateWaveform_conventional (t f : ℝ) :
    generateWaveform t f .sine = Real.sin (2 * Real.pi * f * t) ∧
    generateWaveform t f .square
      = (if 0 ≤ Real.sin (2 * Real.pi * f * t) then 1 else -1) ∧
    (generateWaveform t f .square = 1 ∨ generateWaveform t f .square = -1) ∧
    generateWaveform t f .triangle
      = (2 / Real.pi) * Real.arcsin (Real.sin (2 * Real.pi * f * t)) ∧
    (0 ≤ f * t → generateWaveform t f .sawtooth = 2 * Int.fract (f * t) - 1) := by
  refine ⟨rfl, rfl, ?_, rfl, ?_⟩
  · unfold generateWaveform
    by_cases h : 0 ≤ Real.sin (2 * Real.pi * f * t)
    · left; simp [h]
    · right; simp [h]
  · intro h
    unfold generateWaveform jsMod jsTrunc
    rw [div_one, if_pos h]
    unfold Int.fract
    ring

theorem generateWaveform_conventional_witness :
    ((0 : ℝ) ≤ 2 * (3/8)) ∧
    generateWaveform (3/8 : ℝ) 2 .sawtooth = 2 * Int.fract ((2 : ℝ) * (3/8)) - 1 ∧
    generateWaveform (3/8 : ℝ) 2 .sawtooth = 1/2 :=
  ⟨by norm_num,
   (generateWaveform_conventional (3/8 : ℝ) 2).2.2.2.2 (by norm_num),
   by unfold generateWaveform jsMod jsTrunc; norm_num⟩

/-- Taps per polyphase branch (Visualizer.tsx line 100). -/
def filterLength : ℕ := 64

/-- Number of polyphase branches (Visualizer.tsx line 101). -/
def numPhases : ℕ := 256

/-- totalTaps = filterLength * numPhases (Visualizer.tsx line 123). -/
def totalTaps : ℕ := filterLength * numPhases

/-- The 4-term Blackman-Harris window (Visualizer.tsx lines 105-112). -/
noncomputable def blackmanHarris (n N : ℝ) : ℝ :=
  0.35875 - 0.48829 * Real.cos (2 * Real.pi * n / (N - 1))
    + 0.14128 * Real.cos (2 * (2 * Real.pi * n / (N - 1)))
    - 0.01168 * Real.cos (3 * (2 * Real.pi * n / (N - 1)))

/-- Band-limited sinc with the small-argument guard
(Visualizer.tsx lines 115-119). -/
noncomputable def sinc (x : ℝ) : ℝ :=
  if |x| < 0.0000000001 then 1 else Real.sin (Real.pi * x) / (Real.pi * x)

/-- Unnormalized polyphase coefficient (Visualizer.tsx lines 127-135):
n = tap * numPhases + phase, x = n - totalTaps/2,
value = sinc(x / numPhases) * blackmanHarris(n, totalTaps). -/
noncomputable def rawCoeff (phase tap : ℕ) : ℝ :=
  sinc (((tap : ℝ) * (numPhases : ℝ) + (phase : ℝ) - (totalTaps : ℝ) / 2)
      / (numPhases : ℝ))
    * blackmanHarris ((tap : ℝ) * (numPhases : ℝ) + (phase : ℝ)) (totalTaps : ℝ)

/-- Sum of one phase branch's unnormalized taps (Visualizer.tsx line 139). -/
noncomputable def phaseSum (phase : ℕ) : ℝ :=
  ∑ tap ∈ Finset.range filterLength, rawCoeff phase tap

/-- Normalized polyphase coefficients (Visualizer.tsx line 140). -/
noncomputable def filterCoeffs (phase tap : ℕ) : ℝ :=
  rawCoeff phase tap / phaseSum phase

/-- The 4-term Blackman-Harris window of the source is strictly positive for
every argument (its minimum is 0.00006, at the window edges). -/
theorem blackmanHarris_pos (n N : ℝ) : 0 < blackmanHarris n N := by
  unfold blackmanHarris
  set θ := 2 * Real.pi * n / (N - 1) with hθ
  have h1 : -1 ≤ Real.cos θ := Real.neg_one_le_cos θ
  have h2 : Real.cos θ ≤ 1 := Real.cos_le_one θ
  rw [Real.cos_two_mul θ, Real.cos_three_mul θ]
  set c := Real.cos θ with hc
  have h3 : (0 : ℝ) ≤ 1 - c := by linarith
  have h4 : (0 : ℝ) < 0.18912 - 0.04672 * c := by nlinarith
  nlinarith [mul_nonneg (mul_nonneg h3 h3) (le_of_lt h4), mul_nonneg h3 h3]

theorem sinc_intCast (k : ℤ) (hk : k ≠ 0) : sinc (k : ℝ) = 0 := by
  unfold sinc
  rw [if_neg]
  · rw [show Real.pi * (k : ℝ) = (k : ℝ) * Real.pi by ring, Real.sin_int_mul_pi,
      zero_div]
  · push_neg
    calc (0.0000000001 : ℝ) ≤ 1 := by norm_num
      _ ≤ |(k : ℝ)| := by exact_mod_cast Int.one_le_abs hk

theorem rawCoeff_phase_zero_eq_zero (tap : ℕ) (ht : tap ≠ 32) :
    rawCoeff 0 tap = 0 := by
  unfold rawCoeff
  have harg : ((tap : ℝ) * (numPhases : ℝ) + ((0 : ℕ) : ℝ) - (totalTaps : ℝ) / 2)
      / (numPhases : ℝ) = (((tap : ℤ) - 32 : ℤ) : ℝ) := by
    simp only [numPhases, totalTaps, filterLength]
    push_cast
    ring
  rw [harg, sinc_intCast _ (by omega), zero_mul]

theorem phaseSum_zero_pos : 0 < phaseSum 0 := by
  have h32 : phaseSum 0 = rawCoeff 0 32 := by
    unfold phaseSum
    apply Finset.sum_eq_single_of_mem
    · simp [filterLength]
    · intro b _ hb
      exact rawCoeff_phase_zero_eq_zero b hb
  rw [h32]
  unfold rawCoeff
  have harg : (((32 : ℕ) : ℝ) * (numPhases : ℝ) + ((0 : ℕ) : ℝ)
      - (totalTaps : ℝ) / 2) / (numPhases : ℝ) = 0 := by
    simp only [numPhases, totalTaps, filterLength]
    push_cast
    ring
  rw [harg]
  have hs : sinc 0 = 1 := by
    unfold sinc
    rw [if_pos]
    rw [abs_zero]
    norm_num
  rw [hs, one_mul]
  exact blackmanHarris_pos _ _

/-- The Blackman-Harris window written as a cubic polynomial in
c = cos(2*pi*n/(N-1)), via the double- and triple-angle formulas. -/
noncomputable def bhPoly (c : ℝ) : ℝ :=
  0.35875 - 0.48829 * c + 0.14128 * (2 * c^2 - 1) - 0.01168 * (4 * c^3 - 3 * c)

theorem blackmanHarris_eq_poly (n N : ℝ) :
    blackmanHarris n N = bhPoly (Real.cos (2 * Real.pi * n / (N - 1))) := by
  unfold blackmanHarris bhPoly
  rw [Real.cos_two_mul, Real.cos_three_mul]

theorem bhPoly_anti (c1 c2 : ℝ) (h2 : c2 ≤ 1) (h12 : c1 ≤ c2) :
    bhPoly c2 ≤ bhPoly c1 := by
  unfold bhPoly
  have hB : (0:ℝ) < 0.45325 - 0.28256*(c1+c2) + 0.04672*(c1^2+c1*c2+c2^2) := by
    nlinarith [sq_nonneg (c1 - c2),
      mul_nonneg (by linarith : (0:ℝ) ≤ 2 - (c1+c2))
        (by linarith : (0:ℝ) ≤ 0.21248 - 0.03504*(c1+c2))]
  nlinarith [mul_nonneg (sub_nonneg.2 h12) hB.le]

theorem bhPoly_le_one (c : ℝ) (h1 : -1 ≤ c) (h2 : c ≤ 1) : bhPoly c ≤ 1 := by
  unfold bhPoly
  have hq : (0:ℝ) < 0.04672*c^2 - 0.32928*c + 0.78253 := by
    nlinarith [sq_nonneg (c - 3.5)]
  nlinarith [mul_nonneg (by linarith : (0:ℝ) ≤ 1 + c) hq.le]

theorem blackmanHarris_le_one (n N : ℝ) : blackmanHarris n N ≤ 1 := by
  rw [blackmanHarris_eq_poly]
  exact bhPoly_le_one _ (Real.neg_one_le_cos _) (Real.cos_le_one _)

theorem bhPoly_ge_of_le (c : ℝ) (h1 : -1 ≤ c) (h2 : c ≤ -0.9) : 0.88 ≤ bhPoly c := by
  unfold bhPoly
  nlinarith [sq_nonneg (c + 1), sq_nonneg (c + 0.9),
    mul_nonneg (by linarith : (0:ℝ) ≤ -0.9 - c) (by linarith : (0:ℝ) ≤ c + 1),
    mul_nonneg (mul_nonneg (by linarith : (0:ℝ) ≤ -0.9 - c)
      (by linarith : (0:ℝ) ≤ c + 1)) (by linarith : (0:ℝ) ≤ c + 1)]

theorem cos_mono_pi_two_pi (x y : ℝ) (hx : Real.pi ≤ x) (hxy : x ≤ y)
    (hy : y ≤ 2*Real.pi) : Real.cos x ≤ Real.cos y := by
  rw [← Real.cos_two_pi_sub x, ← Real.cos_two_pi_sub y]
  exact Real.cos_le_cos_of_nonneg_of_le_pi (by linarith)
    (by linarith [Real.pi_pos]) (by linarith)

/-- Moving one tap (256 samples of the full kernel) toward the window center
from the left half increases the Blackman-Harris window value. -/
theorem bh_step_left (m : ℝ) (hm0 : 0 ≤ m) (hm : 2*(m + 256) ≤ 16383) :
    blackmanHarris m 16384 ≤ blackmanHarris (m + 256) 16384 := by
  rw [blackmanHarris_eq_poly, blackmanHarris_eq_poly]
  have hpi := Real.pi_pos
  have hle : 2 * Real.pi * m / (16384 - 1) ≤ 2 * Real.pi * (m + 256) / (16384 - 1) := by
    apply div_le_div_of_nonneg_right ?_ (by norm_num)
    nlinarith
  have hcos : Real.cos (2 * Real.pi * (m + 256) / (16384 - 1))
      ≤ Real.cos (2 * Real.pi * m / (16384 - 1)) := by
    apply Real.cos_le_cos_of_nonneg_of_le_pi
    · positivity
    · rw [div_le_iff₀ (by norm_num : (0:ℝ) < 16384 - 1)]
      nlinarith
    · exact hle
  exact bhPoly_anti _ _ (Real.cos_le_one _) hcos

/-- Moving one tap away from the window center on the right half decreases the
Blackman-Harris window value. -/
theorem bh_step_right (m : ℝ) (hm : 16383 ≤ 2*m) (hm2 : m + 256 ≤ 16383) :
    blackmanHarris (m + 256) 16384 ≤ blackmanHarris m 16384 := by
  rw [blackmanHarris_eq_poly, blackmanHarris_eq_poly]
  have hpi := Real.pi_pos
  have hcos : Real.cos (2 * Real.pi * m / (16384 - 1))
      ≤ Real.cos (2 * Real.pi * (m + 256) / (16384 - 1)) := by
    apply cos_mono_pi_two_pi
    · rw [le_div_iff₀ (by norm_num : (0:ℝ) < 16384 - 1)]
      nlinarith
    · apply div_le_div_of_nonneg_right ?_ (by norm_num)
      nlinarith
    · rw [div_le_iff₀ (by norm_num : (0:ℝ) < 16384 - 1)]
      nlinarith
  exact bhPoly_anti _ _ (Real.cos_le_one _) hcos

/-- Near the window center (within 511 half-samples of n = 16383/2) the
Blackman-Harris window is at least 0.88. -/
theorem bh_center (m : ℝ) (h1 : 2*m ≤ 16894) (h2 : 15872 ≤ 2*m) :
    0.88 ≤ blackmanHarris m 16384 := by
  rw [blackmanHarris_eq_poly]
  have hpi := Real.pi_pos
  have hpilt : Real.pi < 3.15 := by
    calc Real.pi < 3.141593 := Real.pi_lt_3141593
      _ < 3.15 := by norm_num
  set θ := 2 * Real.pi * m / (16384 - 1) with hθ
  have hdev : |θ - Real.pi| ≤ 0.0985 := by
    rw [abs_le]
    constructor
    · have h3 : Real.pi - 0.0985 ≤ 2 * Real.pi * m / (16384 - 1) := by
        rw [le_div_iff₀ (by norm_num : (0:ℝ) < 16384 - 1)]
        nlinarith [mul_le_mul_of_nonneg_left h2 hpi.le]
      rw [hθ]
      linarith
    · have h3 : 2 * Real.pi * m / (16384 - 1) ≤ Real.pi + 0.0985 := by
        rw [div_le_iff₀ (by norm_num : (0:ℝ) < 16384 - 1)]
        nlinarith [mul_le_mul_of_nonneg_left h1 hpi.le]
      rw [hθ]
      linarith
  have hccos : Real.cos (θ - Real.pi) ≥ 0.995 := by
    have hb := Real.one_sub_sq_div_two_le_cos (x := θ - Real.pi)
    have hsq : (θ - Real.pi)^2 ≤ 0.0985^2 := by
      rw [← sq_abs]
      have := abs_nonneg (θ - Real.pi)
      nlinarith
    nlinarith
  have hcos : Real.cos θ ≤ -0.9 := by
    have hpi2 : Real.cos θ = -Real.cos (θ - Real.pi) := by
      rw [show θ = Real.pi + (θ - Real.pi) by ring, Real.cos_add]
      simp
    rw [hpi2]
    linarith
  exact bhPoly_ge_of_le _ (Real.neg_one_le_cos θ) hcos

/-- Proof abbreviation: the tap-th term of phase branch p, with the common
factor sin(pi*p/256)/pi stripped off (see rawCoeff_eq_uTerm). -/
noncomputable def uTerm (p tap : ℕ) : ℝ :=
  (-1 : ℝ)^tap
    * (blackmanHarris ((tap : ℝ) * 256 + (p : ℝ)) 16384
        / ((tap : ℝ) - 32 + (p : ℝ) / 256))

theorem rawCoeff_eq_uTerm (p tap : ℕ) (hp1 : 1 ≤ p) (hp : p < 256) (ht : tap < 64) :
    rawCoeff p tap
      = (Real.sin (Real.pi * ((p : ℝ) / 256)) / Real.pi) * uTerm p tap := by
  have hpr1 : (1 : ℝ) ≤ (p : ℝ) := by exact_mod_cast hp1
  have hpr2 : (p : ℝ) ≤ 255 := by exact_mod_cast (by omega : p ≤ 255)
  have hpow : ((-1 : ℝ))^((tap : ℤ) - 32) = (-1 : ℝ)^tap := by
    rw [zpow_sub₀ (by norm_num : (-1 : ℝ) ≠ 0), zpow_natCast]
    norm_num
  have main : ∀ x : ℝ, (0.0000000001 : ℝ) ≤ |x| →
      Real.pi * x = Real.pi * ((p : ℝ)/256) + (((tap : ℤ) - 32 : ℤ) : ℝ) * Real.pi →
      ∀ W : ℝ, sinc x * W
        = (Real.sin (Real.pi * ((p : ℝ) / 256)) / Real.pi)
            * ((-1 : ℝ)^tap * (W / x)) := by
    intro x habs hpix W
    have hxne : x ≠ 0 := by
      intro h0
      rw [h0, abs_zero] at habs
      norm_num at habs
    unfold sinc
    rw [if_neg (not_lt.2 habs)]
    rw [show Real.sin (Real.pi * x)
        = ((-1 : ℝ))^tap * Real.sin (Real.pi * ((p : ℝ)/256)) from by
      rw [hpix, Real.sin_add_int_mul_pi, hpow]]
    have hpi : Real.pi ≠ 0 := Real.pi_ne_zero
    field_simp
    ring
  have habs : (0.0000000001 : ℝ) ≤ |(tap : ℝ) - 32 + (p : ℝ)/256| := by
    rcases le_or_lt 32 tap with h32 | h32
    · have h32r : (32 : ℝ) ≤ (tap : ℝ) := by exact_mod_cast h32
      have hx1 : (1 : ℝ)/256 ≤ (tap : ℝ) - 32 + (p : ℝ)/256 := by nlinarith
      calc (0.0000000001 : ℝ) ≤ 1/256 := by norm_num
        _ ≤ _ := le_trans hx1 (le_abs_self _)
    · have h31r : (tap : ℝ) ≤ 31 := by exact_mod_cast (by omega : tap ≤ 31)
      have hx1 : (tap : ℝ) - 32 + (p : ℝ)/256 ≤ -(1/256) := by nlinarith
      calc (0.0000000001 : ℝ) ≤ 1/256 := by norm_num
        _ ≤ _ := by
          rw [abs_of_nonpos (by linarith)]
          linarith
  have hpix : Real.pi * ((tap : ℝ) - 32 + (p : ℝ)/256)
      = Real.pi * ((p : ℝ)/256) + (((tap : ℤ) - 32 : ℤ) : ℝ) * Real.pi := by
    push_cast
    ring
  unfold rawCoeff
  have harg : ((tap : ℝ) * (numPhases : ℝ) + (p : ℝ) - (totalTaps : ℝ) / 2)
      / (numPhases : ℝ) = (tap : ℝ) - 32 + (p : ℝ)/256 := by
    simp only [numPhases, totalTaps, filterLength]
    push_cast
    ring
  have hn : (tap : ℝ) * (numPhases : ℝ) + (p : ℝ) = (tap : ℝ) * 256 + (p : ℝ) := by
    simp only [numPhases]
    push_cast
    ring
  have hN : (totalTaps : ℝ) = 16384 := by
    simp only [totalTaps, numPhases, filterLength]
    push_cast
    ring
  rw [harg, hn, hN]
  unfold uTerm
  exact main _ habs hpix _

/-- Regrouping bound: a sum of 2m consecutive terms is nonnegative when each
adjacent (even, odd) pair is. -/
theorem sum_pairs_nonneg (g : ℕ → ℝ) (a m : ℕ)
    (h : ∀ j, j < m → 0 ≤ g (a + 2*j) + g (a + 2*j + 1)) :
    0 ≤ ∑ i ∈ Finset.range (2*m), g (a + i) := by
  induction m with
  | zero => simp
  | succ m ih =>
    have he : 2*(m+1) = 2*m + 1 + 1 := by ring
    rw [he, Finset.sum_range_succ, Finset.sum_range_succ]
    have hp := h m (by omega)
    have hih := ih (fun j hj => h j (by omega))
    have e1 : a + (2*m + 1) = a + 2*m + 1 := by omega
    rw [e1]
    linarith

/-- Splitting a 64-term sum around the two central taps. -/
theorem sum_range64_split (u : ℕ → ℝ) :
    ∑ i ∈ Finset.range 64, u i
      = (∑ i ∈ Finset.range 30, u i) + u 30 + u 31 + u 32 + u 33
        + ∑ i ∈ Finset.range 30, u (34 + i) := by
  have h1 : ∑ i ∈ Finset.range 64, u i
      = (∑ i ∈ Finset.Ico 0 34, u i) + ∑ i ∈ Finset.Ico 34 64, u i := by
    rw [Finset.sum_Ico_consecutive u (by omega) (by omega), Finset.range_eq_Ico]
  rw [h1, Finset.sum_Ico_eq_sum_range, Finset.sum_Ico_eq_sum_range]
  norm_num
  rw [Finset.sum_range_succ, Finset.sum_range_succ, Finset.sum_range_succ,
    Finset.sum_range_succ]

theorem uTerm_pair_left (p j : ℕ) (hp1 : 1 ≤ p) (hp : p < 256) (hj : j < 15) :
    0 ≤ uTerm p (2*j) + uTerm p (2*j + 1) := by
  have hpr1 : (1 : ℝ) ≤ (p : ℝ) := by exact_mod_cast hp1
  have hpr2 : (p : ℝ) ≤ 255 := by exact_mod_cast (by omega : p ≤ 255)
  have hjr : ((2*j : ℕ) : ℝ) ≤ 28 := by exact_mod_cast (by omega : 2*j ≤ 28)
  unfold uTerm
  have hsgn1 : ((-1 : ℝ))^(2*j) = 1 := Even.neg_one_pow ⟨j, by ring⟩
  have hsgn2 : ((-1 : ℝ))^(2*j + 1) = -1 := Odd.neg_one_pow ⟨j, by ring⟩
  rw [hsgn1, hsgn2]
  set W1 := blackmanHarris (((2*j : ℕ) : ℝ) * 256 + (p : ℝ)) 16384 with hW1
  set W2 := blackmanHarris (((2*j + 1 : ℕ) : ℝ) * 256 + (p : ℝ)) 16384 with hW2
  set x1 := ((2*j : ℕ) : ℝ) - 32 + (p : ℝ)/256 with hx1
  have hx2 : ((2*j + 1 : ℕ) : ℝ) - 32 + (p : ℝ)/256 = x1 + 1 := by
    rw [hx1]; push_cast; ring
  rw [hx2]
  have hx1neg : x1 ≤ -3 := by
    rw [hx1]; nlinarith
  have hWle : W1 ≤ W2 := by
    rw [hW1, hW2]
    have harg : ((2*j + 1 : ℕ) : ℝ) * 256 + (p : ℝ)
        = ((2*j : ℕ) : ℝ) * 256 + (p : ℝ) + 256 := by push_cast; ring
    rw [harg]
    apply bh_step_left
    · positivity
    · nlinarith
  have hW1pos : 0 < W1 := blackmanHarris_pos _ _
  have hx1ne : x1 ≠ 0 := by linarith
  have hx2ne : x1 + 1 ≠ 0 := by linarith
  have key : W1 / x1 + -1 * (W2 / (x1 + 1))
      = (W1 * (x1 + 1) - x1 * W2) / (x1 * (x1 + 1)) := by
    field_simp
    ring
  rw [show (1 : ℝ) * (W1 / x1) + -1 * (W2 / (x1 + 1))
      = W1 / x1 + -1 * (W2 / (x1 + 1)) by ring, key]
  apply div_nonneg
  · nlinarith [mul_nonneg (by linarith : (0:ℝ) ≤ -x1) (by linarith : (0:ℝ) ≤ W2 - W1)]
  · nlinarith

theorem uTerm_pair_right (p j : ℕ) (hp1 : 1 ≤ p) (hp : p < 256) (hj : j < 15) :
    0 ≤ uTerm p (34 + 2*j) + uTerm p (34 + 2*j + 1) := by
  have hpr1 : (1 : ℝ) ≤ (p : ℝ) := by exact_mod_cast hp1
  have hpr2 : (p : ℝ) ≤ 255 := by exact_mod_cast (by omega : p ≤ 255)
  have hjr : ((34 + 2*j : ℕ) : ℝ) ≤ 62 := by
    exact_mod_cast (by omega : 34 + 2*j ≤ 62)
  have hjr2 : (34 : ℝ) ≤ ((34 + 2*j : ℕ) : ℝ) := by
    exact_mod_cast (by omega : 34 ≤ 34 + 2*j)
  unfold uTerm
  have hsgn1 : ((-1 : ℝ))^(34 + 2*j) = 1 := Even.neg_one_pow ⟨17 + j, by ring⟩
  have hsgn2 : ((-1 : ℝ))^(34 + 2*j + 1) = -1 := Odd.neg_one_pow ⟨17 + j, by ring⟩
  rw [hsgn1, hsgn2]
  set W1 := blackmanHarris (((34 + 2*j : ℕ) : ℝ) * 256 + (p : ℝ)) 16384 with hW1
  set W2 := blackmanHarris (((34 + 2*j + 1 : ℕ) : ℝ) * 256 + (p : ℝ)) 16384 with hW2
  set x1 := ((34 + 2*j : ℕ) : ℝ) - 32 + (p : ℝ)/256 with hx1
  have hx2 : ((34 + 2*j + 1 : ℕ) : ℝ) - 32 + (p : ℝ)/256 = x1 + 1 := by
    rw [hx1]; push_cast; ring
  rw [hx2]
  have hx1pos : 2 ≤ x1 := by
    rw [hx1]; nlinarith
  have hWle : W2 ≤ W1 := by
    rw [hW1, hW2]
    have harg : ((34 + 2*j + 1 : ℕ) : ℝ) * 256 + (p : ℝ)
        = ((34 + 2*j : ℕ) : ℝ) * 256 + (p : ℝ) + 256 := by push_cast; ring
    rw [harg]
    apply bh_step_right
    · nlinarith
    · nlinarith
  have hW2pos : 0 < W2 := blackmanHarris_pos _ _
  have hx1ne : x1 ≠ 0 := by linarith
  have hx2ne : x1 + 1 ≠ 0 := by linarith
  have key : W1 / x1 + -1 * (W2 / (x1 + 1))
      = (W1 * (x1 + 1) - x1 * W2) / (x1 * (x1 + 1)) := by
    field_simp
    ring
  rw [show (1 : ℝ) * (W1 / x1) + -1 * (W2 / (x1 + 1))
      = W1 / x1 + -1 * (W2 / (x1 + 1)) by ring, key]
  apply div_nonneg
  · nlinarith [mul_nonneg (by linarith : (0:ℝ) ≤ x1) (by linarith : (0:ℝ) ≤ W1 - W2)]
  · nlinarith

/-- Every phase branch of the polyphase table has a strictly positive
unnormalized tap sum: for phase 0 the sum collapses to the (positive) window
center value, and for phases 1..255 the two central taps dominate the
alternating tails of the windowed sinc. -/
theorem phaseSum_pos (p : ℕ) (hp : p < 256) : 0 < phaseSum p := by
  rcases Nat.eq_zero_or_pos p with h0 | hp1
  · rw [h0]; exact phaseSum_zero_pos
  have hpr1 : (1 : ℝ) ≤ (p : ℝ) := by exact_mod_cast hp1
  have hpr2 : (p : ℝ) ≤ 255 := by exact_mod_cast (by omega : p ≤ 255)
  set f : ℝ := (p : ℝ) / 256 with hf
  have hf0 : 0 < f := by rw [hf]; positivity
  have hf1 : f ≤ 255/256 := by rw [hf]; linarith
  have hf0' : f ≠ 0 := ne_of_gt hf0
  have h1f : 0 < 1 - f := by linarith
  have h1f' : (1 : ℝ) - f ≠ 0 := ne_of_gt h1f
  have hs : 0 < Real.sin (Real.pi * f) / Real.pi := by
    apply div_pos ?_ Real.pi_pos
    apply Real.sin_pos_of_pos_of_lt_pi
    · positivity
    · nlinarith [Real.pi_pos]
  have hsum : phaseSum p
      = (Real.sin (Real.pi * f) / Real.pi) * ∑ tap ∈ Finset.range 64, uTerm p tap := by
    unfold phaseSum filterLength
    rw [Finset.mul_sum]
    apply Finset.sum_congr rfl
    intro tap htap
    rw [hf]
    exact rawCoeff_eq_uTerm p tap hp1 hp (Finset.mem_range.mp htap)
  rw [hsum]
  apply mul_pos hs
  rw [sum_range64_split (fun i => uTerm p i)]
  have hleft : 0 ≤ ∑ i ∈ Finset.range 30, uTerm p i := by
    have h30 : (30 : ℕ) = 2*15 := by norm_num
    rw [h30]
    have hpair := sum_pairs_nonneg (fun i => uTerm p i) 0 15
      (fun j hj => by simpa using uTerm_pair_left p j hp1 hp hj)
    simpa using hpair
  have hright : 0 ≤ ∑ i ∈ Finset.range 30, uTerm p (34 + i) := by
    have h30 : (30 : ℕ) = 2*15 := by norm_num
    rw [h30]
    exact sum_pairs_nonneg (fun i => uTerm p i) 34 15
      (fun j hj => uTerm_pair_right p j hp1 hp hj)
  have hu32 : 0.88 / f ≤ uTerm p 32 := by
    have hW : 0.88 ≤ blackmanHarris ((32 : ℝ) * 256 + (p : ℝ)) 16384 :=
      bh_center _ (by nlinarith) (by nlinarith)
    unfold uTerm
    push_cast
    rw [show ((-1 : ℝ))^(32 : ℕ) = 1 from Even.neg_one_pow ⟨16, by ring⟩, one_mul,
      show (32 : ℝ) - 32 + (p : ℝ)/256 = f from by rw [hf]; ring]
    exact (div_le_div_right hf0).mpr hW
  have hu31 : 0.88 / (1 - f) ≤ uTerm p 31 := by
    have hW : 0.88 ≤ blackmanHarris ((31 : ℝ) * 256 + (p : ℝ)) 16384 :=
      bh_center _ (by nlinarith) (by nlinarith)
    unfold uTerm
    push_cast
    rw [show ((-1 : ℝ))^(31 : ℕ) = -1 from Odd.neg_one_pow ⟨15, by ring⟩,
      show (31 : ℝ) - 32 + (p : ℝ)/256 = -(1 - f) from by rw [hf]; ring,
      div_neg, neg_mul, one_mul, neg_neg]
    exact (div_le_div_right h1f).mpr hW
  have hu33 : -1 ≤ uTerm p 33 := by
    have hW := blackmanHarris_le_one ((33 : ℝ) * 256 + (p : ℝ)) 16384
    have hWpos := blackmanHarris_pos ((33 : ℝ) * 256 + (p : ℝ)) 16384
    unfold uTerm
    push_cast
    rw [show ((-1 : ℝ))^(33 : ℕ) = -1 from Odd.neg_one_pow ⟨16, by ring⟩,
      show (33 : ℝ) - 32 + (p : ℝ)/256 = 1 + f from by rw [hf]; ring,
      neg_mul, one_mul]
    have hdiv : blackmanHarris ((33 : ℝ) * 256 + (p : ℝ)) 16384 / (1 + f) ≤ 1 := by
      rw [div_le_one (by linarith : (0:ℝ) < 1 + f)]
      linarith
    linarith
  have hu30 : -1 ≤ uTerm p 30 := by
    have hW := blackmanHarris_le_one ((30 : ℝ) * 256 + (p : ℝ)) 16384
    have hWpos := blackmanHarris_pos ((30 : ℝ) * 256 + (p : ℝ)) 16384
    unfold uTerm
    push_cast
    rw [show ((-1 : ℝ))^(30 : ℕ) = 1 from Even.neg_one_pow ⟨15, by ring⟩, one_mul,
      show (30 : ℝ) - 32 + (p : ℝ)/256 = -(2 - f) from by rw [hf]; ring,
      div_neg]
    have hdiv : blackmanHarris ((30 : ℝ) * 256 + (p : ℝ)) 16384 / (2 - f) ≤ 1 := by
      rw [div_le_one (by linarith : (0:ℝ) < 2 - f)]
      linarith
    linarith
  have hcore : 3.52 ≤ 0.88/f + 0.88/(1-f) := by
    have hprod : 0 < f*(1-f) := mul_pos hf0 h1f
    have hple : f*(1-f) ≤ 1/4 := by nlinarith [sq_nonneg (f - 1/2)]
    have heq : 0.88/f + 0.88/(1-f) = 0.88/(f*(1-f)) := by
      field_simp
      ring
    rw [heq, le_div_iff₀ hprod]
    nlinarith
  linarith

/-- C6: every one of the numPhases = 256 phase branches of the polyphase table
has normalized taps summing to exactly 1 (in particular, within 1e-9): the
unnormalized branch sum is strictly positive, and the source's normalization
step divides each tap by it. -/
theorem polyphase_branch_unity_dc_gain (phase : ℕ) (hp : phase < numPhases) :
    |(∑ tap ∈ Finset.range filterLength, filterCoeffs phase tap) - 1|
      ≤ 0.000000001 := by
  unfold filterCoeffs
  rw [← Finset.sum_div]
  have hps : (∑ tap ∈ Finset.range filterLength, rawCoeff phase tap)
      = phaseSum phase := rfl
  have hp256 : phase < 256 := by
    simp only [numPhases] at hp
    exact hp
  rw [hps, div_self (ne_of_gt (phaseSum_pos phase hp256))]
  norm_num

theorem polyphase_branch_unity_dc_gain_witness :
    0 < numPhases ∧ (200 : ℕ) < numPhases ∧
    |(∑ tap ∈ Finset.range filterLength, filterCoeffs 0 tap) - 1|
      ≤ 0.000000001 ∧
    |(∑ tap ∈ Finset.range filterLength, filterCoeffs 200 tap) - 1|
      ≤ 0.000000001 :=
  ⟨by norm_num [numPhases], by norm_num [numPhases],
   polyphase_branch_unity_dc_gain 0 (by norm_num [numPhases]),
   polyphase_branch_unity_dc_gain 200 (by norm_num [numPhases])⟩

/-- Mutable state of the crusher ScriptProcessor
(Visualizer.tsx lines 96 and 102): the phase accumulator and the buffer of
captured quantized samples. -/
structure CrusherState where
  phaseAccumulator : ℝ
  sampleBuffer : List ℝ

/-- One iteration of the crusher block loop (Visualizer.tsx lines 147-195):
when sampleRate < hardwareRate, run the decimator tick, trim the capture
buffer to filterLength, and produce the polyphase-interpolated output (or the
last captured sample while the buffer is still filling); otherwise bypass —
quantize the input sample with no phase tracking and no buffering. -/
noncomputable def crusherStep (sampleRate hardwareRate : ℝ) (levels : ℕ)
    (st : CrusherState) (x : ℝ) : ℝ × CrusherState :=
  if sampleRate < hardwareRate then
    let downsampleRatio := hardwareRate / sampleRate
    let tick := decimatorTick levels downsampleRatio st.phaseAccumulator x
    let buf : List ℝ :=
      match tick.2 with
      | some q =>
        let b := st.sampleBuffer ++ [q]
        if filterLength < b.length then b.tail else b
      | none => st.sampleBuffer
    let out : ℝ :=
      if filterLength ≤ buf.length then
        let fracPos := tick.1 / downsampleRatio
        let phaseIndex := (⌊fracPos * (numPhases : ℝ)⌋ % (numPhases : ℤ)).toNat
        ∑ tap ∈ Finset.range filterLength,
          buf.getD (buf.length - filterLength + tap) 0 * filterCoeffs phaseIndex tap
      else
        match buf.getLast? with
        | some s => s
        | none => 0
    (out, ⟨tick.1, buf⟩)
  else (quantize x levels, st)

/-- The onaudioprocess callback body (Visualizer.tsx lines 143-197): fold
crusherStep over the input block, collecting one output sample per input
sample. -/
noncomputable def crusherProcess (sampleRate hardwareRate : ℝ) (levels : ℕ) :
    CrusherState → List ℝ → List ℝ × CrusherState
  | st, [] => ([], st)
  | st, x :: xs =>
    let step := crusherStep sampleRate hardwareRate levels st x
    let rest := crusherProcess sampleRate hardwareRate levels step.2 xs
    (step.1 :: rest.1, rest.2)

/-- C4: when the configured sample rate is at least the hardware rate, the
block processor takes the bypass path: each output sample is exactly the
quantized input sample, the state (phase accumulator and sample history) is
untouched, no filtering is applied, and the output block length equals the
input block length. -/
theorem crusher_bypass (sampleRate hardwareRate : ℝ) (levels : ℕ)
    (h : hardwareRate ≤ sampleRate) (st : CrusherState) (input : List ℝ) :
    (crusherProcess sampleRate hardwareRate levels st input).1
        = input.map (fun x => quantize x levels) ∧
    (crusherProcess sampleRate hardwareRate levels st input).2 = st ∧
    (crusherProcess sampleRate hardwareRate levels st input).1.length
        = input.length := by
  have hstep : ∀ (st' : CrusherState) (x : ℝ),
      crusherStep sampleRate hardwareRate levels st' x = (quantize x levels, st') := by
    intro st' x
    unfold crusherStep
    rw [if_neg (not_lt.2 h)]
  have main : ∀ (st : CrusherState) (input : List ℝ),
      crusherProcess sampleRate hardwareRate levels st input
        = (input.map fun x => quantize x levels, st) := by
    intro st input
    induction input generalizing st with
    | nil => simp [crusherProcess]
    | cons x xs ih =>
      simp only [crusherProcess, hstep, List.map_cons]
      rw [ih]
  rw [main st input]
  exact ⟨rfl, rfl, by simp⟩

theorem crusher_bypass_witness :
    ((48000 : ℝ) ≤ 96000) ∧
    (crusherProcess 96000 48000 256 ⟨0, []⟩ [1]).1 = [quantize (1 : ℝ) 256] ∧
    (crusherProcess 96000 48000 256 ⟨0, []⟩ [1]).2 = (⟨0, []⟩ : CrusherState) ∧
    quantize (1 : ℝ) 256 = 1 :=
  ⟨by norm_num,
   by simpa using (crusher_bypass 96000 48000 256 (by norm_num) ⟨0, []⟩ [1]).1,
   (crusher_bypass 96000 48000 256 (by norm_num) ⟨0, []⟩ [1]).2.1,
   by norm_num [quantize, quantizeIndex]⟩

end SQEez
